import Mathlib

/-!
Shallow embedding of the AI Debate Chamber application (src/App.tsx, second
revision, together with src/types.ts and the Gemini service wrapper), and
proofs about the behavioural claims of its specification.

Modelling conventions:
* JS numbers are modelled as exact rationals (`ℚ`); `Number.prototype.toFixed(2)`
  followed by `parseFloat` is modelled as exact rounding to two decimal places
  with ties rounded up (the rounding rule of `toFixed`).
* Optional JS string fields (`uri?`, `title?`) are collapsed to `""` for
  `undefined`: the code only uses them through truthiness tests, `Set`
  membership behind a truthiness guard, and `||` fallback, where `undefined`
  and `""` behave identically.
* The single-threaded playback loop with its `Promise.race` interruption is
  modelled as an explicit state machine stepping on suspension-point events.
-/

namespace DebateApp

/-- `enum AIPersona` from src/types.ts. -/
inductive AIPersona
  | Logos
  | Pathos
deriving DecidableEq

/-- `persona: AIPersona | 'SYSTEM'` on `DebateMessage`. -/
inductive Speaker
  | ai (p : AIPersona)
  | SYSTEM
deriving DecidableEq

/-- `enum DebatePhase` from src/types.ts (second revision, with SCORING). -/
inductive DebatePhase
  | IDLE
  | ANALYZING
  | DEBATING
  | VOTING
  | SCORING
  | FINISHED
deriving DecidableEq

/-- `interface Source { uri: string; title: string }` from src/types.ts. -/
structure Source where
  uri : String
  title : String
deriving DecidableEq

/-- `interface DebateMessage` from src/types.ts. The optional `sources?`
field is collapsed to a list that is empty when the field is absent (the code
writes `sources.length > 0 ? sources : undefined`, so absent and empty are
interchangeable downstream). -/
structure DebateMessage where
  persona : Speaker
  text : String
  isStreaming : Bool
  sources : List Source
deriving DecidableEq

/-- One entry of the `debateTurns` array in src/App.tsx. -/
structure Turn where
  persona : AIPersona
  stage : String
deriving DecidableEq

/-- The `debateTurns` constant of src/App.tsx: the fixed ordered list of the
six debate turns. -/
def debateTurns : List Turn :=
  [⟨.Logos, "OPENING"⟩, ⟨.Pathos, "OPENING"⟩,
   ⟨.Logos, "REBUTTAL"⟩, ⟨.Pathos, "REBUTTAL"⟩,
   ⟨.Logos, "CLOSING"⟩, ⟨.Pathos, "CLOSING"⟩]

/-! ### Streaming text reducer (the `for await (const chunk of stream)` body) -/

/-- One streamed chunk, as consumed by the loop body in `runDebate`:
`chunk.text` plus the grounding chunks reached through
`chunk.candidates?.[0]?.groundingMetadata?.groundingChunks` (a missing path is
the empty list).  Each grounding chunk carries an optional `web` object; a
missing `web` is `none`, and missing `uri`/`title` fields inside it are
collapsed to `""`. -/
structure Chunk where
  text : String
  groundingChunks : List (Option Source)
deriving DecidableEq

/-- Mutable state of one turn's stream reduction in `runDebate`:
`fullText`, the `sources` array and the `sourceUris` set. -/
structure StreamState where
  fullText : String
  sources : List Source
  sourceUris : List String
deriving DecidableEq

/-- The body of the inner `for (const groundingChunk of groundingChunks)` loop:
`const source = groundingChunk.web;`
`if (source && source.uri && !sourceUris.has(source.uri)) { sources.push({ uri: source.uri, title: source.title || source.uri }); sourceUris.add(source.uri); }`. -/
def pushCandidate (st : StreamState) (gc : Option Source) : StreamState :=
  match gc with
  | none => st
  | some s =>
      if s.uri ≠ "" ∧ s.uri ∉ st.sourceUris then
        { st with
            sources := st.sources ++ [⟨s.uri, if s.title ≠ "" then s.title else s.uri⟩],
            sourceUris := st.sourceUris ++ [s.uri] }
      else st

/-- One iteration of `for await (const chunk of stream)`:
`fullText += chunk.text` and the grounding-chunk loop. -/
def consumeChunk (st : StreamState) (ch : Chunk) : StreamState :=
  ch.groundingChunks.foldl pushCandidate { st with fullText := st.fullText ++ ch.text }

/-- Reduction of a whole (finite) fragment stream of one turn, starting from
`fullText = ''`, `sources = []`, `sourceUris = new Set()`. -/
def reduceTurnStream (chunks : List Chunk) : StreamState :=
  chunks.foldl consumeChunk ⟨"", [], []⟩

/-- The `finalMessage` built after the stream of a turn ends in `runDebate`. -/
def finalMessageOfTurn (turn : Turn) (chunks : List Chunk) : DebateMessage :=
  let st := reduceTurnStream chunks
  ⟨.ai turn.persona, st.fullText, false, st.sources⟩

/-- All present citation candidates of a fragment sequence, in arrival order. -/
def candidateList (chunks : List Chunk) : List Source :=
  (chunks.flatMap Chunk.groundingChunks).filterMap id

end DebateApp

namespace DebateApp

lemma pushCandidate_fullText (st : StreamState) (gc : Option Source) :
    (pushCandidate st gc).fullText = st.fullText := by
  cases gc with
  | none => rfl
  | some s =>
      simp only [pushCandidate]
      split <;> rfl

lemma foldl_pushCandidate_fullText (st : StreamState) (gcs : List (Option Source)) :
    (gcs.foldl pushCandidate st).fullText = st.fullText := by
  induction gcs generalizing st with
  | nil => rfl
  | cons gc gcs ih => rw [List.foldl_cons, ih, pushCandidate_fullText]

lemma consumeChunk_fullText (st : StreamState) (ch : Chunk) :
    (consumeChunk st ch).fullText = st.fullText ++ ch.text := by
  simp [consumeChunk, foldl_pushCandidate_fullText]

lemma string_foldl_append (l : List String) (a : String) :
    l.foldl (fun r s => r ++ s) a = a ++ l.foldl (fun r s => r ++ s) "" := by
  induction l generalizing a with
  | nil => simp
  | cons s l ih =>
      simp only [List.foldl_cons]
      rw [ih (a ++ s), ih ("" ++ s)]
      simp [String.append_assoc]

lemma foldl_consumeChunk_fullText (st : StreamState) (chunks : List Chunk) :
    (chunks.foldl consumeChunk st).fullText
      = st.fullText ++ String.join (chunks.map Chunk.text) := by
  induction chunks generalizing st with
  | nil => simp [String.join]
  | cons ch chunks ih =>
      rw [List.foldl_cons, ih, consumeChunk_fullText]
      simp only [List.map_cons, String.join, List.foldl_cons]
      rw [string_foldl_append _ ("" ++ ch.text)]
      simp [String.append_assoc]

/-- **Claim C5.**  For any finite fragment sequence of a turn's stream, the
final `text` of the turn's message equals the strict concatenation of all
`deltaText` (`chunk.text`) values in arrival order, and the empty sequence
yields the empty text. -/
theorem C5_fullText_is_strict_concat (turn : Turn) (chunks : List Chunk) :
    (finalMessageOfTurn turn chunks).text = String.join (chunks.map Chunk.text)
      ∧ (finalMessageOfTurn turn []).text = "" := by
  constructor
  · show (reduceTurnStream chunks).fullText = _
    rw [reduceTurnStream, foldl_consumeChunk_fullText]
    rfl
  · rfl

/-- Witness for C5 at a concrete two-fragment stream. -/
theorem C5_fullText_is_strict_concat_witness :
    (finalMessageOfTurn ⟨.Logos, "OPENING"⟩ [⟨"Hello ", []⟩, ⟨"world", []⟩]).text
      = String.join ([⟨"Hello ", []⟩, ⟨"world", []⟩].map Chunk.text) :=
  (C5_fullText_is_strict_concat ⟨.Logos, "OPENING"⟩ [⟨"Hello ", []⟩, ⟨"world", []⟩]).1

/-! ### Citation deduplication (claim C6) -/

lemma string_join_cons (s : String) (l : List String) :
    String.join (s :: l) = s ++ String.join l := by
  simp only [String.join, List.foldl_cons]
  rw [string_foldl_append]
  simp [String.empty_append]

lemma pushCandidate_setText (st : StreamState) (t : String) (gc : Option Source) :
    pushCandidate { st with fullText := t } gc = { pushCandidate st gc with fullText := t } := by
  cases gc with
  | none => rfl
  | some s =>
      simp only [pushCandidate]
      split <;> rfl

lemma foldl_push_setText (gcs : List (Option Source)) (st : StreamState) (t : String) :
    gcs.foldl pushCandidate { st with fullText := t }
      = { gcs.foldl pushCandidate st with fullText := t } := by
  induction gcs generalizing st with
  | nil => rfl
  | cons gc gcs ih => rw [List.foldl_cons, List.foldl_cons, pushCandidate_setText, ih]

/-- The stream fold splits into the text concatenation and a single candidate
fold over the concatenation of all grounding-chunk lists. -/
lemma foldl_consumeChunk_eq (chunks : List Chunk) (st : StreamState) :
    chunks.foldl consumeChunk st
      = { (chunks.flatMap Chunk.groundingChunks).foldl pushCandidate st with
          fullText := st.fullText ++ String.join (chunks.map Chunk.text) } := by
  induction chunks generalizing st with
  | nil => simp [String.join]
  | cons ch chunks ih =>
      rw [List.foldl_cons, ih]
      simp only [consumeChunk, foldl_push_setText, List.flatMap_cons, List.foldl_append,
        List.map_cons, string_join_cons]
      simp [foldl_push_setText, String.append_assoc]

lemma foldl_push_uris_eq (gcs : List (Option Source)) (st : StreamState)
    (h : st.sourceUris = st.sources.map Source.uri) :
    (gcs.foldl pushCandidate st).sourceUris
      = (gcs.foldl pushCandidate st).sources.map Source.uri := by
  induction gcs generalizing st with
  | nil => exact h
  | cons gc gcs ih =>
      rw [List.foldl_cons]
      cases gc with
      | none => exact ih st h
      | some s =>
          simp only [pushCandidate]
          split
          · exact ih _ (by simp [h])
          · exact ih st h

lemma foldl_push_nodup (gcs : List (Option Source)) (st : StreamState)
    (h : st.sourceUris.Nodup) :
    (gcs.foldl pushCandidate st).sourceUris.Nodup := by
  induction gcs generalizing st with
  | nil => exact h
  | cons gc gcs ih =>
      rw [List.foldl_cons]
      cases gc with
      | none => exact ih st h
      | some s =>
          simp only [pushCandidate]
          split
          · rename_i hg
            refine ih _ (List.Nodup.append h (List.nodup_singleton _) ?_)
            intro a ha hb
            rw [List.mem_singleton] at hb
            exact hg.2 (hb ▸ ha)
          · exact ih st h

lemma foldl_push_mem (gcs : List (Option Source)) (st : StreamState) (u : String) :
    u ∈ (gcs.foldl pushCandidate st).sourceUris
      ↔ u ∈ st.sourceUris ∨ (u ≠ "" ∧ u ∈ (gcs.filterMap id).map Source.uri) := by
  induction gcs generalizing st with
  | nil => simp
  | cons gc gcs ih =>
      rw [List.foldl_cons]
      cases gc with
      | none => simpa using ih st
      | some s =>
          simp only [pushCandidate]
          split
          · rename_i hg
            rw [ih]
            have himp : u = s.uri → u ≠ "" := fun h1 => h1 ▸ hg.1
            simp only [List.mem_append, List.mem_singleton, List.filterMap_cons,
              id_eq, List.map_cons, List.mem_cons]
            tauto
          · rename_i hg
            rw [ih]
            push_neg at hg
            have himp : u = s.uri → u ≠ "" → u ∈ st.sourceUris :=
              fun h1 h2 => h1 ▸ hg (h1 ▸ h2)
            simp only [List.filterMap_cons, id_eq, List.map_cons, List.mem_cons]
            tauto

lemma foldl_push_sources_suffix (gcs : List (Option Source)) (st : StreamState) :
    ∃ tail, (gcs.foldl pushCandidate st).sources = st.sources ++ tail
      ∧ (tail.map Source.uri).Sublist ((gcs.filterMap id).map Source.uri) := by
  induction gcs generalizing st with
  | nil => exact ⟨[], by simp⟩
  | cons gc gcs ih =>
      rw [List.foldl_cons]
      cases gc with
      | none =>
          obtain ⟨tail, h1, h2⟩ := ih st
          exact ⟨tail, h1, by simpa using h2⟩
      | some s =>
          simp only [pushCandidate]
          split
          · obtain ⟨tail, h1, h2⟩ := ih _
            refine ⟨⟨s.uri, if s.title ≠ "" then s.title else s.uri⟩ :: tail, ?_, ?_⟩
            · rw [h1]; simp
            · simp only [List.filterMap_cons, id_eq, List.map_cons]
              exact List.Sublist.cons₂ _ h2
          · obtain ⟨tail, h1, h2⟩ := ih st
            refine ⟨tail, h1, ?_⟩
            simp only [List.filterMap_cons, id_eq, List.map_cons]
            exact h2.cons _

/-- Every source in the fold's output either was already there, or is the
first candidate of the remaining stream carrying its (nonempty, previously
unseen) uri, with the code's `title || uri` label fallback applied. -/
lemma foldl_push_label (gcs : List (Option Source)) (st : StreamState)
    (h : st.sourceUris = st.sources.map Source.uri) :
    ∀ s ∈ (gcs.foldl pushCandidate st).sources, s ∈ st.sources ∨
      (s.uri ≠ "" ∧ s.uri ∉ st.sourceUris ∧
        ∃ c, (gcs.filterMap id).find? (fun c => c.uri == s.uri) = some c
          ∧ s.title = (if c.title ≠ "" then c.title else c.uri)) := by
  induction gcs generalizing st with
  | nil => exact fun s hs => Or.inl hs
  | cons gc gcs ih =>
      rw [List.foldl_cons]
      cases gc with
      | none => simpa using ih st h
      | some c0 =>
          simp only [pushCandidate]
          split
          · rename_i hg
            intro s hs
            rcases ih _ (by simp [h]) s hs with hmem | ⟨hne, hnot, c, hfind, hlabel⟩
            · rw [List.mem_append, List.mem_singleton] at hmem
              rcases hmem with hmem | rfl
              · exact Or.inl hmem
              · refine Or.inr ⟨hg.1, hg.2, ⟨c0, ?_, rfl⟩⟩
                simp [List.find?_cons]
            · simp only [List.mem_append, List.mem_singleton] at hnot
              push_neg at hnot
              refine Or.inr ⟨hne, hnot.1, ⟨c, ?_, hlabel⟩⟩
              simp only [List.filterMap_cons, id_eq]
              rw [List.find?_cons_of_neg _ (by simp [Ne.symm hnot.2])]
              exact hfind
          · rename_i hg
            push_neg at hg
            intro s hs
            rcases ih st h s hs with hmem | ⟨hne, hnot, c, hfind, hlabel⟩
            · exact Or.inl hmem
            · refine Or.inr ⟨hne, hnot, ⟨c, ?_, hlabel⟩⟩
              simp only [List.filterMap_cons, id_eq]
              by_cases hc : c0.uri = s.uri
              · exfalso
                rcases eq_or_ne c0.uri "" with h0 | h0
                · exact hne (hc ▸ h0)
                · exact hnot (hc ▸ hg h0)
              · rw [List.find?_cons_of_neg _ (by simp [hc])]
                exact hfind

/-- Modelled from the claim's words (C6): for the citation candidates in
arrival order, a candidate is appended iff its `uri` has not been seen before
in this Message; on duplicate uris the first-seen label wins and later
duplicates are dropped silently. -/
def claimedCitations : List Source → List String → List Source
  | [], _ => []
  | c :: cs, seen =>
      if c.uri ∉ seen then ⟨c.uri, c.title⟩ :: claimedCitations cs (c.uri :: seen)
      else claimedCitations cs seen

/-- **Counterexample to claim C6 as stated.**  A candidate whose `uri` is
empty (the JS field is falsy) has not been seen before, yet the code's
truthiness guard `source && source.uri && ...` drops it, so it is never
appended — contradicting the claimed "appended iff its uri has not been seen
before". -/
theorem C6_cex :
    (reduceTurnStream [⟨"t", [some ⟨"", "label"⟩]⟩]).sources = []
  ∧ claimedCitations (candidateList [⟨"t", [some ⟨"", "label"⟩]⟩]) [] = [⟨"", "label"⟩]
  ∧ (reduceTurnStream [⟨"t", [some ⟨"", "label"⟩]⟩]).sources
      ≠ claimedCitations (candidateList [⟨"t", [some ⟨"", "label"⟩]⟩]) [] := by
  refine ⟨rfl, rfl, ?_⟩
  decide

/-- **Claim C6, amended.**  A citation candidate is appended to a Message's
citations iff its uri is nonempty and has not been seen before within that
Message; insertion order is preserved (the output uris form a subsequence of
the candidate uris); on duplicate uris the first-seen label wins (the label
being the candidate's title, falling back to its uri when the title is empty)
while later duplicates are dropped silently; and feeding two fragments with an
identical nonempty uri but different labels yields exactly one citation, with
the first-seen label. -/
theorem C6_dedup_amended (chunks : List Chunk) (t1 t2 u l1 l2 : String) (hu : u ≠ "") :
    ((reduceTurnStream chunks).sources.map Source.uri).Nodup
  ∧ (∀ v, v ∈ (reduceTurnStream chunks).sources.map Source.uri
        ↔ (v ≠ "" ∧ v ∈ (candidateList chunks).map Source.uri))
  ∧ (∀ s ∈ (reduceTurnStream chunks).sources,
        ∃ c, (candidateList chunks).find? (fun c => c.uri == s.uri) = some c
          ∧ s.title = (if c.title ≠ "" then c.title else c.uri))
  ∧ ((reduceTurnStream chunks).sources.map Source.uri).Sublist
        ((candidateList chunks).map Source.uri)
  ∧ (reduceTurnStream [⟨t1, [some ⟨u, l1⟩]⟩, ⟨t2, [some ⟨u, l2⟩]⟩]).sources
        = [⟨u, if l1 ≠ "" then l1 else u⟩] := by
  have hflat := foldl_consumeChunk_eq chunks ⟨"", [], []⟩
  have huris : (reduceTurnStream chunks).sourceUris
      = (reduceTurnStream chunks).sources.map Source.uri := by
    rw [reduceTurnStream, hflat]
    exact foldl_push_uris_eq _ ⟨"", [], []⟩ rfl
  refine ⟨?_, ?_, ?_, ?_, ?_⟩
  · rw [← huris, reduceTurnStream, hflat]
    exact foldl_push_nodup _ ⟨"", [], []⟩ (by simp)
  · intro v
    rw [← huris, reduceTurnStream, hflat]
    show v ∈ ((chunks.flatMap Chunk.groundingChunks).foldl pushCandidate ⟨"", [], []⟩).sourceUris ↔ _
    rw [foldl_push_mem]
    simp [candidateList]
  · intro s hs
    rw [reduceTurnStream, hflat] at hs
    have := foldl_push_label (chunks.flatMap Chunk.groundingChunks) ⟨"", [], []⟩ rfl s hs
    rcases this with hmem | ⟨_, _, c, hfind, hlabel⟩
    · simp at hmem
    · exact ⟨c, hfind, hlabel⟩
  · rw [reduceTurnStream, hflat]
    obtain ⟨tail, h1, h2⟩ :=
      foldl_push_sources_suffix (chunks.flatMap Chunk.groundingChunks) ⟨"", [], []⟩
    show (((chunks.flatMap Chunk.groundingChunks).foldl pushCandidate ⟨"", [], []⟩).sources.map Source.uri).Sublist _
    rw [h1]
    simpa [candidateList] using h2
  · simp [reduceTurnStream, consumeChunk, pushCandidate, hu]

/-- Witness for C6's amended theorem at a concrete stream. -/
theorem C6_dedup_amended_witness :
    (reduceTurnStream [⟨"a", [some ⟨"u1", "L1"⟩]⟩, ⟨"b", [some ⟨"u1", "L2"⟩]⟩]).sources
      = [⟨"u1", "L1"⟩] := by
  have h := (C6_dedup_amended [] "a" "b" "u1" "L1" "L2" (by decide)).2.2.2.2
  simpa using h

/-! ### Turn sequencer, PART 1 of `runDebate` (claim C7) -/

/-- PART 1 of `runDebate`: the `for (const turn of debateTurns)` loop.  The
generative capability `generateDebateTurnStream(currentHistory, persona, side,
stage, currentQuestion)` is abstracted as an oracle `stream` producing the
turn's finite chunk list from exactly those five arguments.  Returns the
`generatedMessages` array and the final `currentHistory`. -/
def genTurns (stream : List DebateMessage → AIPersona → String → String → String → List Chunk)
    (sides : AIPersona → String) (question : String) :
    List Turn → List DebateMessage → List DebateMessage × List DebateMessage
  | [], history => ([], history)
  | t :: ts, history =>
      let chunks := stream history t.persona (sides t.persona) t.stage question
      let st := reduceTurnStream chunks
      let fm : DebateMessage := ⟨.ai t.persona, st.fullText, false, st.sources⟩
      let rest := genTurns stream sides question ts (history ++ [fm])
      (fm :: rest.1, rest.2)

/-- The `generatedMessages` produced by PART 1 of `runDebate` over the fixed
`debateTurns` sequence, starting from the three SYSTEM messages. -/
def generateDebateScript
    (stream : List DebateMessage → AIPersona → String → String → String → List Chunk)
    (sides : AIPersona → String) (question : String)
    (systemMessages : List DebateMessage) : List DebateMessage :=
  (genTurns stream sides question debateTurns systemMessages).1

lemma genTurns_personas
    (stream : List DebateMessage → AIPersona → String → String → String → List Chunk)
    (sides : AIPersona → String) (question : String)
    (ts : List Turn) (history : List DebateMessage) :
    ((genTurns stream sides question ts history).1).map DebateMessage.persona
      = ts.map (fun t => Speaker.ai t.persona) := by
  induction ts generalizing history with
  | nil => rfl
  | cons t ts ih => simp [genTurns, ih]

/-- **Claim C7.**  For every debate run, regardless of generated content, the
emitted non-SYSTEM message sequence has one message per entry of
`debateTurns`, in order, with the matching persona; and `debateTurns` is the
fixed 6-tuple A/OPENING, B/OPENING, A/REBUTTAL, B/REBUTTAL, A/CLOSING,
B/CLOSING (A = Logos, B = Pathos), a constant of the program. -/
theorem C7_fixed_turn_order
    (stream : List DebateMessage → AIPersona → String → String → String → List Chunk)
    (sides : AIPersona → String) (question : String)
    (systemMessages : List DebateMessage) :
    (generateDebateScript stream sides question systemMessages).map DebateMessage.persona
        = debateTurns.map (fun t => Speaker.ai t.persona)
  ∧ debateTurns
        = [⟨.Logos, "OPENING"⟩, ⟨.Pathos, "OPENING"⟩, ⟨.Logos, "REBUTTAL"⟩,
           ⟨.Pathos, "REBUTTAL"⟩, ⟨.Logos, "CLOSING"⟩, ⟨.Pathos, "CLOSING"⟩]
  ∧ (generateDebateScript stream sides question systemMessages).length = 6
  ∧ ∀ m ∈ generateDebateScript stream sides question systemMessages,
        m.persona ≠ Speaker.SYSTEM := by
  have h1 : (generateDebateScript stream sides question systemMessages).map
        DebateMessage.persona = debateTurns.map (fun t => Speaker.ai t.persona) :=
    genTurns_personas stream sides question debateTurns systemMessages
  refine ⟨h1, rfl, ?_, ?_⟩
  · have h2 : (generateDebateScript stream sides question systemMessages).length
        = ((generateDebateScript stream sides question systemMessages).map
            DebateMessage.persona).length := (List.length_map _ _).symm
    rw [h2, h1]
    rfl
  · intro m hm hSys
    have h3 : m.persona ∈ (generateDebateScript stream sides question systemMessages).map
        DebateMessage.persona := List.mem_map_of_mem _ hm
    rw [h1, hSys] at h3
    simp [debateTurns] at h3

/-! ### Score aggregator (claims C3, C4, C10) -/

/-- JS regex `\w` (ASCII word character). -/
def jsWordChar (c : Char) : Bool := c.isAlpha || c.isDigit || c = '_'

/-- JS regex `\s` (whitespace; the ASCII cases plus NBSP). -/
def jsSpaceChar (c : Char) : Bool :=
  c = ' ' || c = '\t' || c = '\n' || c = '\r' || c = '\x0b' || c = '\x0c' || c = '\u00A0'

/-- JS `String.prototype.toLowerCase()`, modelled as per-character lowering
(adequate on the ASCII criterion strings involved here). -/
def jsToLower (s : String) : String := String.mk (s.data.map Char.toLower)

/-- The `scoreWeights` object of src/App.tsx, as the ordered key/weight list
(`Object.keys` iterates string keys in insertion order). -/
def scoreWeightsList : List (String × ℚ) :=
  [("Positioning", 10/100), ("Argument", 20/100), ("Evidence", 20/100),
   ("Refutation", 15/100), ("Coverage", 10/100), ("Ethics", 10/100),
   ("Clarity", 10/100), ("Tone", 5/100)]

/-- `scoreWeights[k]`, with a missing key read as 0 (only ever looked up at
keys produced by `Object.keys(scoreWeights)`). -/
def scoreWeights (k : String) : ℚ :=
  (((scoreWeightsList.find? (fun p => p.1 == k)).map Prod.snd).getD 0)

/-- `Object.keys(scoreWeights)`. -/
def scoreWeightKeys : List String := scoreWeightsList.map Prod.fst

/-- `interface Score { criteria; score; notes }` from src/types.ts; JS numbers
modelled as exact rationals. -/
structure Score where
  criteria : String
  score : ℚ
  notes : String
deriving DecidableEq

/-- `scoreItem.criteria.toLowerCase().replace(/[^\w\s]/gi, '')`. -/
def normalizeCriteria (s : String) : String :=
  String.mk ((jsToLower s).data.filter (fun c => jsWordChar c || jsSpaceChar c))

/-- `Object.keys(scoreWeights).find(key => key.toLowerCase() === scoreItem.criteria.toLowerCase().replace(/[^\w\s]/gi, ''))`. -/
def resolveWeightKey (criteria : String) : Option String :=
  scoreWeightKeys.find? (fun key => jsToLower key == normalizeCriteria criteria)

/-- `parseFloat(total.toFixed(2))` on an exact-rational model of JS numbers:
round to 2 decimal places, ties rounded up (the `toFixed` rounding rule). -/
def round2 (x : ℚ) : ℚ := ((⌊x * 100 + 1 / 2⌋ : ℤ) : ℚ) / 100

/-- The body of the `scores.forEach(scoreItem => ...)` accumulation in
`calculateFinalScore`: resolve the weight key; if one is found and its weight
is truthy (nonzero), add `scoreItem.score * scoreWeights[weightKey]`. -/
def scoreStep (total : ℚ) (scoreItem : Score) : ℚ :=
  match resolveWeightKey scoreItem.criteria with
  | some weightKey =>
      if scoreWeights weightKey ≠ 0 then total + scoreItem.score * scoreWeights weightKey
      else total
  | none => total

/-- `calculateFinalScore` of src/App.tsx: fold the weighted contributions of
the items whose criteria resolve to a weight-table key with a truthy
(nonzero) weight, then round to two decimals. -/
def calculateFinalScore (scores : List Score) : ℚ :=
  round2 (scores.foldl scoreStep 0)

namespace SpecScore

/-- The per-item weight of the amended claim C3: resolve the criterion by
lowercasing it, stripping every character that is neither a word character
(letter, digit, underscore) nor whitespace, and comparing with the lowercased
canonical key; an item matching no canonical key gets weight 0. -/
def weightOf (criteria : String) : ℚ :=
  match resolveWeightKey criteria with
  | some k => scoreWeights k
  | none => 0

end SpecScore

namespace ClaimedScore

/-- Modelled from the claim's words (C3 as stated): strip all
non-alphanumeric/non-space characters, lowercase, compare. -/
def normalize (s : String) : String :=
  String.mk ((s.data.filter (fun c => c.isAlphanum || jsSpaceChar c)).map Char.toLower)

/-- The claimed per-item weight: criterion resolved via `normalize`, no match
contributing zero. -/
def weightOf (criteria : String) : ℚ :=
  match scoreWeightKeys.find? (fun key => jsToLower key == normalize criteria) with
  | some k => scoreWeights k
  | none => 0

/-- The claimed final score: `round2(Σ rawScore_i * weight_i)`. -/
def finalScore (scores : List Score) : ℚ :=
  round2 ((scores.map (fun s => s.score * weightOf s.criteria)).sum)

end ClaimedScore

/-- **Counterexample to claim C3 as stated.**  The code's regex `[^\w\s]`
keeps underscores (`\w` contains `_`), while the claim's "strip all
non-alphanumeric/non-space characters" removes them: for the criterion
`"Tone_"` the code finds no weight-table key and the item contributes zero,
whereas the claimed matching resolves it to `Tone` and contributes
`5 * 0.05 = 0.25`. -/
theorem C3_cex :
    calculateFinalScore [⟨"Tone_", 5, ""⟩] = 0
  ∧ ClaimedScore.finalScore [⟨"Tone_", 5, ""⟩] = 1 / 4
  ∧ calculateFinalScore [⟨"Tone_", 5, ""⟩] ≠ ClaimedScore.finalScore [⟨"Tone_", 5, ""⟩] := by
  have hcode : resolveWeightKey "Tone_" = none := by decide
  have hclaim : scoreWeightKeys.find? (fun key => jsToLower key == ClaimedScore.normalize "Tone_")
      = some "Tone" := by decide
  have hw : scoreWeights "Tone" = 5 / 100 := rfl
  have h1 : calculateFinalScore [⟨"Tone_", 5, ""⟩] = 0 := by
    simp only [calculateFinalScore, List.foldl_cons, List.foldl_nil, scoreStep, hcode]
    norm_num [round2]
  have h2 : ClaimedScore.finalScore [⟨"Tone_", 5, ""⟩] = 1 / 4 := by
    simp only [ClaimedScore.finalScore, ClaimedScore.weightOf, List.map_cons, List.map_nil,
      List.sum_cons, List.sum_nil, hclaim, hw]
    norm_num [round2]
  refine ⟨h1, h2, ?_⟩
  rw [h1, h2]
  norm_num

lemma scoreStep_eq (t : ℚ) (s : Score) :
    scoreStep t s = t + s.score * SpecScore.weightOf s.criteria := by
  unfold scoreStep SpecScore.weightOf
  cases hr : resolveWeightKey s.criteria with
  | none => simp
  | some k =>
      by_cases hw : scoreWeights k = 0
      · simp [hw]
      · simp [hw]

lemma foldl_scoreStep (scores : List Score) (t : ℚ) :
    scores.foldl scoreStep t
      = t + (scores.map (fun s => s.score * SpecScore.weightOf s.criteria)).sum := by
  induction scores generalizing t with
  | nil => simp
  | cons s ss ih =>
      rw [List.foldl_cons, ih, scoreStep_eq, List.map_cons, List.sum_cons]
      ring

/-- **Claim C3, amended.**  `calculateFinalScore` returns
`round2(Σ rawScore_i * weight_i)` where each item's criterion is resolved to a
canonical weight-table key by lowercasing it and stripping every character
that is neither a word character (letter, digit, underscore) nor whitespace —
the JS classes `\w`/`\s` — and comparing with the lowercased key; any item
matching no canonical key contributes zero to the weighted sum. -/
theorem C3_weighted_sum_amended (scores : List Score) :
    calculateFinalScore scores
      = round2 ((scores.map (fun s => s.score * SpecScore.weightOf s.criteria)).sum) := by
  unfold calculateFinalScore
  rw [foldl_scoreStep, zero_add]

/-! ### Verdict computation of `handleVote` (claim C4) -/

/-- `let winner: AIPersona | 'TIE' = 'TIE'` plus the two comparisons in
`handleVote`. -/
inductive WinnerTag
  | side (p : AIPersona)
  | TIE
deriving DecidableEq

/-- The winner computation of `handleVote`:
`if (logosFinal > pathosFinal) winner = Logos; else if (pathosFinal > logosFinal) winner = Pathos; else TIE`. -/
def computeWinner (logosFinal pathosFinal : ℚ) : WinnerTag :=
  if logosFinal > pathosFinal then .side .Logos
  else if pathosFinal > logosFinal then .side .Pathos
  else .TIE

/-- The final-score/winner part of `handleVote`'s `scoreData`: both sides'
`calculateFinalScore` results and the winner derived from them. -/
def computeVerdict (logosScores pathosScores : List Score) : (ℚ × ℚ) × WinnerTag :=
  ((calculateFinalScore logosScores, calculateFinalScore pathosScores),
   computeWinner (calculateFinalScore logosScores) (calculateFinalScore pathosScores))

/-- Eight ScoreItems, one per canonical criterion in rubric order, all with
raw score 5. -/
def canonicalFives : List Score := scoreWeightKeys.map (fun k => ⟨k, 5, ""⟩)

lemma calculateFinalScore_canonicalFives : calculateFinalScore canonicalFives = 5 := by
  unfold calculateFinalScore
  rw [foldl_scoreStep, zero_add]
  have hmap : canonicalFives.map (fun s => s.score * SpecScore.weightOf s.criteria)
      = [5 * (10/100), 5 * (20/100), 5 * (20/100), 5 * (15/100),
         5 * (10/100), 5 * (10/100), 5 * (10/100), 5 * (5/100)] := rfl
  rw [hmap]
  norm_num [round2]

/-- **Claim C4.**  The computed winner is Logos iff its final score strictly
exceeds Pathos's, Pathos iff the converse, and TIE exactly when the two
rounded final scores are equal; and for 8 ScoreItems per side exactly matching
the canonical criteria with all raw scores 5, both final scores are 5 (the
weights sum to 1.0) and the winner is TIE. -/
theorem C4_winner_rule :
    (∀ a b : ℚ,
        (computeWinner a b = WinnerTag.side AIPersona.Logos ↔ b < a)
      ∧ (computeWinner a b = WinnerTag.side AIPersona.Pathos ↔ a < b)
      ∧ (computeWinner a b = WinnerTag.TIE ↔ a = b))
  ∧ calculateFinalScore canonicalFives = 5
  ∧ computeVerdict canonicalFives canonicalFives = ((5, 5), WinnerTag.TIE) := by
  refine ⟨?_, calculateFinalScore_canonicalFives, ?_⟩
  · intro a b
    unfold computeWinner
    split_ifs with h1 h2
    · exact ⟨iff_of_true rfl h1, iff_of_false (by simp) (lt_asymm h1),
        iff_of_false (by simp) (ne_of_gt h1)⟩
    · exact ⟨iff_of_false (by simp) h1, iff_of_true rfl h2,
        iff_of_false (by simp) (Ne.symm (ne_of_gt h2))⟩
    · have hab : a = b := le_antisymm (not_lt.mp h1) (not_lt.mp h2)
      exact ⟨iff_of_false (by simp) h1, iff_of_false (by simp) h2, iff_of_true rfl hab⟩
  · unfold computeVerdict
    rw [calculateFinalScore_canonicalFives]
    unfold computeWinner
    simp

/-! ### Implicit score bound (claim C10) -/

lemma scoreWeights_nonneg (k : String) : 0 ≤ scoreWeights k := by
  unfold scoreWeights
  cases hf : scoreWeightsList.find? (fun p => p.1 == k) with
  | none => simp
  | some p =>
      have hmem : p ∈ scoreWeightsList := List.mem_of_find?_eq_some hf
      simp only [Option.map_some', Option.getD_some]
      fin_cases hmem <;> norm_num

lemma specWeightOf_nonneg (c : String) : 0 ≤ SpecScore.weightOf c := by
  unfold SpecScore.weightOf
  cases hr : resolveWeightKey c with
  | none => simp
  | some k => exact scoreWeights_nonneg k

lemma resolveWeightKey_mem {c k : String} (h : resolveWeightKey c = some k) :
    k ∈ scoreWeightKeys :=
  List.mem_of_find?_eq_some h

lemma sum_map_le_of_nodup_subset {α : Type} [DecidableEq α] (f : α → ℚ) :
    ∀ (K L : List α), K.Nodup → (∀ k ∈ K, k ∈ L) → (∀ x ∈ L, 0 ≤ f x) →
      (K.map f).sum ≤ (L.map f).sum := by
  intro K
  induction K with
  | nil =>
      intro L _ _ hnn
      simp only [List.map_nil, List.sum_nil]
      refine List.sum_nonneg ?_
      intro x hx
      obtain ⟨a, ha, rfl⟩ := List.mem_map.1 hx
      exact hnn a ha
  | cons k K ih =>
      intro L hnd hsub hnn
      have hkL : k ∈ L := hsub k (List.mem_cons_self k K)
      have hperm : L.Perm (k :: L.erase k) := List.perm_cons_erase hkL
      have hsum : (L.map f).sum = f k + ((L.erase k).map f).sum := by
        have h := (hperm.map f).sum_eq
        simpa using h
      rw [List.map_cons, List.sum_cons, hsum]
      have hnotmem : k ∉ K := (List.nodup_cons.mp hnd).1
      refine add_le_add_left (ih (L.erase k) (List.nodup_cons.mp hnd).2 ?_ ?_) (f k)
      · intro x hx
        have hxL : x ∈ L := hsub x (List.mem_cons_of_mem k hx)
        have hne : x ≠ k := fun h => hnotmem (h ▸ hx)
        exact (List.mem_erase_of_ne hne).mpr hxL
      · intro x hx
        exact hnn x (List.mem_of_mem_erase hx)

lemma weightKeys_sum : (scoreWeightKeys.map scoreWeights).sum = 1 := by
  have h : scoreWeightKeys.map scoreWeights
      = [10/100, 20/100, 20/100, 15/100, 10/100, 10/100, 10/100, 5/100] := rfl
  rw [h]
  norm_num

lemma map_weightOf_eq_filterMap (scores : List Score) :
    (scores.map (fun s => SpecScore.weightOf s.criteria)).sum
      = ((scores.filterMap (fun s => resolveWeightKey s.criteria)).map scoreWeights).sum := by
  induction scores with
  | nil => rfl
  | cons s ss ih =>
      rw [List.map_cons, List.sum_cons]
      cases hr : resolveWeightKey s.criteria with
      | none =>
          have hw : SpecScore.weightOf s.criteria = 0 := by
            unfold SpecScore.weightOf
            rw [hr]
          rw [hw, zero_add, ih, List.filterMap_cons, hr]
      | some k =>
          have hw : SpecScore.weightOf s.criteria = scoreWeights k := by
            unfold SpecScore.weightOf
            rw [hr]
          rw [hw, ih, List.filterMap_cons, hr, List.map_cons, List.sum_cons]

lemma round2_nonneg {x : ℚ} (h : 0 ≤ x) : 0 ≤ round2 x := by
  unfold round2
  have h1 : (0 : ℚ) ≤ x * 100 + 1 / 2 := by linarith
  have h2 : (0 : ℤ) ≤ ⌊x * 100 + 1 / 2⌋ := Int.floor_nonneg.mpr h1
  have h3 : (0 : ℚ) ≤ ((⌊x * 100 + 1 / 2⌋ : ℤ) : ℚ) := by exact_mod_cast h2
  exact div_nonneg h3 (by norm_num)

lemma round2_le_five {x : ℚ} (h : x ≤ 5) : round2 x ≤ 5 := by
  unfold round2
  rw [div_le_iff₀ (by norm_num : (0 : ℚ) < 100)]
  have h1 : x * 100 + 1 / 2 ≤ 500 + 1 / 2 := by linarith
  have h2 : ⌊x * 100 + 1 / 2⌋ ≤ ⌊(500 : ℚ) + 1 / 2⌋ := Int.floor_le_floor h1
  have h3 : ⌊(500 : ℚ) + 1 / 2⌋ = 500 := by norm_num
  rw [h3] at h2
  calc ((⌊x * 100 + 1 / 2⌋ : ℤ) : ℚ) ≤ ((500 : ℤ) : ℚ) := by exact_mod_cast h2
    _ = 5 * 100 := by norm_num

/-- **Claim C10.**  If every raw score lies in [0, 5] and each canonical
weight-table criterion is matched by at most one item (the resolved keys are
pairwise distinct), then `calculateFinalScore` returns a value in [0, 5]: the
eight canonical weights sum to 1.0 and unmatched items contribute zero, so
the displayed maximum possible score of 5 is never exceeded. -/
theorem C10_final_score_bounded (scores : List Score)
    (hrange : ∀ s ∈ scores, 0 ≤ s.score ∧ s.score ≤ 5)
    (hone : (scores.filterMap (fun s => resolveWeightKey s.criteria)).Nodup) :
    0 ≤ calculateFinalScore scores ∧ calculateFinalScore scores ≤ 5 := by
  have heq : calculateFinalScore scores
      = round2 ((scores.map (fun s => s.score * SpecScore.weightOf s.criteria)).sum) := by
    unfold calculateFinalScore
    rw [foldl_scoreStep, zero_add]
  have hlow : 0 ≤ (scores.map (fun s => s.score * SpecScore.weightOf s.criteria)).sum := by
    refine List.sum_nonneg ?_
    intro x hx
    obtain ⟨s, hs, rfl⟩ := List.mem_map.1 hx
    exact mul_nonneg (hrange s hs).1 (specWeightOf_nonneg _)
  have hstep1 : (scores.map (fun s => s.score * SpecScore.weightOf s.criteria)).sum
      ≤ (scores.map (fun s => 5 * SpecScore.weightOf s.criteria)).sum :=
    List.sum_le_sum fun s hs =>
      mul_le_mul_of_nonneg_right (hrange s hs).2 (specWeightOf_nonneg _)
  have hstep2 : (scores.map (fun s => 5 * SpecScore.weightOf s.criteria)).sum
      = 5 * (scores.map (fun s => SpecScore.weightOf s.criteria)).sum := by
    rw [List.sum_map_mul_left]
  have hsub : ∀ k ∈ scores.filterMap (fun s => resolveWeightKey s.criteria),
      k ∈ scoreWeightKeys := by
    intro k hk
    obtain ⟨s, _, hres⟩ := List.mem_filterMap.1 hk
    exact resolveWeightKey_mem hres
  have hstep3 : (scores.map (fun s => SpecScore.weightOf s.criteria)).sum ≤ 1 := by
    rw [map_weightOf_eq_filterMap]
    have hle := sum_map_le_of_nodup_subset scoreWeights
      (scores.filterMap (fun s => resolveWeightKey s.criteria)) scoreWeightKeys
      hone hsub (fun x _ => scoreWeights_nonneg x)
    rw [weightKeys_sum] at hle
    exact hle
  have hhigh : (scores.map (fun s => s.score * SpecScore.weightOf s.criteria)).sum ≤ 5 := by
    linarith
  rw [heq]
  exact ⟨round2_nonneg hlow, round2_le_five hhigh⟩

/-- Witness for C10 at a concrete score list (one exact criterion, one
punctuation-skewed criterion). -/
theorem C10_final_score_bounded_witness :
    0 ≤ calculateFinalScore [⟨"Argument", 3, ""⟩, ⟨"tone!!", 5, ""⟩]
  ∧ calculateFinalScore [⟨"Argument", 3, ""⟩, ⟨"tone!!", 5, ""⟩] ≤ 5 :=
  C10_final_score_bounded [⟨"Argument", 3, ""⟩, ⟨"tone!!", 5, ""⟩]
    (by decide) (by decide)

/-! ### Playback loop and interruption (PART 3 of `runDebate`; claims C1, C2, C8, C9)

The loop is single-threaded and cooperative: user handlers and promise
resolutions only run while the loop is suspended at an `await`.  It is
modelled as a state machine whose steps are the events delivered at those
suspension points. -/

/-- Where the playback loop of `runDebate` PART 3 is suspended: at the
audio-generation race of turn `i`, at the playback race of turn `i`, or past
the loop (after `skipTrigger.current = null` and the epilogue ran). -/
inductive LoopPt
  | pendingAudio (i : Nat)
  | playing (i : Nat)
  | finished
deriving DecidableEq

/-- State of the playback pipeline between suspension points:
the loop position, `isSkippedRef.current`, the debate phase, whether
`setError` was called, how many `generateSpeech` requests were started (their
ids are `0..requests-1`), and which request id the pending audio race is
awaiting. -/
structure PlayState where
  loopPt : LoopPt
  isSkipped : Bool
  phase : DebatePhase
  errorSurfaced : Bool
  requests : Nat
  awaiting : Option Nat
deriving DecidableEq

/-- Events delivered at the suspension points of the loop: resolution or
rejection of an audio request (tagged with its request id; `nonempty` is the
truthiness of the returned `audioData`), playback completion or failure, and
the two user interrupts `handleSkip` and `handleSkipToVoting`. -/
inductive PlayEv
  | audioOk (id : Nat) (nonempty : Bool)
  | audioErr (id : Nat)
  | playEnd
  | playErr
  | skipTurn
  | skipToVoting
deriving DecidableEq

/-- `generatedMessages.length`: one message per entry of `debateTurns`. -/
def numTurns : Nat := debateTurns.length

/-- State on entering the loop: the phase was just set to DEBATING, iteration
0 armed its interrupt and started the first `generateSpeech` request (id 0);
`isSkippedRef.current` was reset by `handleStartDebate`. -/
def startPlayback : PlayState :=
  ⟨.pendingAudio 0, false, .DEBATING, false, 1, some 0⟩

/-- `continue`/fall-through to the next iteration of the `for` loop: the loop
top checks `isSkippedRef.current` (breaking without the epilogue's phase
change, which runs only when not skipped), then arms a fresh interrupt and
starts the next turn's `generateSpeech` request; past the last turn the
epilogue sets the phase to VOTING when no skip is pending. -/
def advanceTurn (s : PlayState) (i : Nat) : PlayState :=
  if s.isSkipped then
    { s with loopPt := .finished, awaiting := none }
  else if i + 1 < numTurns then
    { s with loopPt := .pendingAudio (i + 1), requests := s.requests + 1,
             awaiting := some s.requests }
  else
    { s with loopPt := .finished, awaiting := none, phase := .VOTING }

/-- `break` out of the loop followed by the epilogue
(`skipTrigger.current = null; if (!isSkippedRef.current) { ...; setPhase(VOTING) }`). -/
def exitLoop (s : PlayState) : PlayState :=
  if s.isSkipped then { s with loopPt := .finished, awaiting := none }
  else { s with loopPt := .finished, awaiting := none, phase := .VOTING }

/-- `handleSkipToVoting`: a no-op when `isSkippedRef.current` is already set;
otherwise it sets the flag, stops any sounding audio, resolves the armed
interrupt with 'voting' (making the pending race break out of the loop) and
sets the phase to VOTING. -/
def skipToVotingStep (s : PlayState) : PlayState :=
  if s.isSkipped then s
  else { s with isSkipped := true, phase := .VOTING, loopPt := .finished, awaiting := none }

/-- One suspension-point step of the playback loop of `runDebate` PART 3.
An `audioOk`/`audioErr` whose id is not the awaited one is the late
settlement of an abandoned request: nothing awaits it, so the state is
unchanged. -/
def playStep (s : PlayState) (e : PlayEv) : PlayState :=
  match s.loopPt, e with
  | .pendingAudio i, .audioOk id ne =>
      if s.awaiting = some id then
        if ne then { s with loopPt := .playing i, awaiting := none }
        else advanceTurn s i
      else s
  | .pendingAudio _, .audioErr id =>
      if s.awaiting = some id then
        exitLoop { s with errorSurfaced := s.errorSurfaced || !s.isSkipped }
      else s
  | .pendingAudio i, .skipTurn => advanceTurn s i
  | .pendingAudio _, .skipToVoting => skipToVotingStep s
  | .pendingAudio _, .playEnd => s
  | .pendingAudio _, .playErr => s
  | .playing i, .playEnd => advanceTurn s i
  | .playing _, .playErr =>
      exitLoop { s with errorSurfaced := s.errorSurfaced || !s.isSkipped }
  | .playing i, .skipTurn => advanceTurn s i
  | .playing _, .skipToVoting => skipToVotingStep s
  | .playing _, .audioOk _ _ => s
  | .playing _, .audioErr _ => s
  | .finished, .skipToVoting => skipToVotingStep s
  | .finished, _ => s

/-- Folding a sequence of suspension-point events into the machine. -/
def runEvents (s : PlayState) (evs : List PlayEv) : PlayState :=
  evs.foldl playStep s

lemma finished_absorbing (s : PlayState) (h : s.loopPt = .finished) (e : PlayEv) :
    (playStep s e).loopPt = .finished := by
  cases s with
  | mk pt sk ph er rq aw =>
      cases h
      cases e <;> first
        | rfl
        | (simp only [playStep, skipToVotingStep]; split <;> rfl)

lemma runEvents_finished (s : PlayState) (h : s.loopPt = .finished) (evs : List PlayEv) :
    (runEvents s evs).loopPt = .finished := by
  induction evs generalizing s with
  | nil => exact h
  | cons e evs ih => exact ih _ (finished_absorbing s h e)

lemma skipped_finished_frozen (s : PlayState) (hsk : s.isSkipped = true)
    (hpt : s.loopPt = .finished) (e : PlayEv) : playStep s e = s := by
  cases s with
  | mk pt sk ph er rq aw =>
      cases hpt
      cases hsk
      cases e <;> simp [playStep, skipToVotingStep]

lemma runEvents_skipped_frozen (s : PlayState) (hsk : s.isSkipped = true)
    (hpt : s.loopPt = .finished) (evs : List PlayEv) : runEvents s evs = s := by
  induction evs with
  | nil => rfl
  | cons e evs ih =>
      show runEvents (playStep s e) evs = s
      rw [skipped_finished_frozen s hsk hpt e]
      exact ih

/-! ### Post-debate analysis (claim C1) -/

/-- The result shape of `generateDebateSummary`. -/
structure DebateSummary where
  logosSummary : List String
  pathosSummary : List String
deriving DecidableEq

/-- `interface ArgumentComparison` from src/types.ts. -/
structure ArgumentComparison where
  topic : String
  logosStance : String
  pathosStance : String
deriving DecidableEq

/-- PART 2 of `runDebate`:
`const [debateSummary, argumentComparison] = await Promise.all([generateDebateSummary(...), generateArgumentComparison(...)]); setSummary(...); setComparison(...)`
inside a try/catch that only logs.  Both requests run in parallel, but
`Promise.all` is fail-fast: if either rejects, the `await` throws before
either `setSummary` or `setComparison` runs, so both state slots keep their
initial `null`.  The two request outcomes are the arguments; the returned
pair is the resulting (summary, comparison) state. -/
def part2Analysis (summaryResult : Except String DebateSummary)
    (comparisonResult : Except String (List ArgumentComparison)) :
    Option DebateSummary × Option (List ArgumentComparison) :=
  match summaryResult, comparisonResult with
  | .ok s, .ok c => (some s, some c)
  | _, _ => (none, none)

/-- Modelled from the claim's words (C1 as stated): either request may fail
independently and only the failing one's result stays absent. -/
def claimedPart2 (summaryResult : Except String DebateSummary)
    (comparisonResult : Except String (List ArgumentComparison)) :
    Option DebateSummary × Option (List ArgumentComparison) :=
  (summaryResult.toOption, comparisonResult.toOption)

/-- **Counterexample to claim C1 as stated.**  The code joins the two
analysis requests with fail-fast `Promise.all`: when the summary succeeds and
the comparison fails, the summary result is *also* absent, not present as the
claim states. -/
theorem C1_cex :
    part2Analysis (.ok ⟨["a"], ["b"]⟩) (.error "comparison failed") = (none, none)
  ∧ claimedPart2 (.ok ⟨["a"], ["b"]⟩) (.error "comparison failed")
      = (some ⟨["a"], ["b"]⟩, none)
  ∧ part2Analysis (.ok ⟨["a"], ["b"]⟩) (.error "comparison failed")
      ≠ claimedPart2 (.ok ⟨["a"], ["b"]⟩) (.error "comparison failed") := by
  refine ⟨rfl, rfl, by decide⟩

/-- **Claim C1, amended.**  The summary and comparison requests run in
parallel but are joined all-or-nothing: both results are present iff both
requests succeed, and if either fails both results stay absent.  The failure
is non-fatal (only logged): playback still runs to completion and the phase
reaches voting — with both summary and comparison absent when exactly one
request failed. -/
theorem C1_analysis_amended (s : DebateSummary) (c : List ArgumentComparison)
    (e e' : String) :
    part2Analysis (.ok s) (.ok c) = (some s, some c)
  ∧ part2Analysis (.ok s) (.error e) = (none, none)
  ∧ part2Analysis (.error e) (.ok c) = (none, none)
  ∧ part2Analysis (.error e) (.error e') = (none, none)
  ∧ runEvents startPlayback
      [.audioOk 0 true, .playEnd, .audioOk 1 true, .playEnd, .audioOk 2 true, .playEnd,
       .audioOk 3 true, .playEnd, .audioOk 4 true, .playEnd, .audioOk 5 true, .playEnd]
      = ⟨.finished, false, .VOTING, false, 6, none⟩ := by
  refine ⟨rfl, rfl, rfl, rfl, ?_⟩
  decide

/-! ### Audio-generation failure (claim C2) -/

/-- **Counterexample to claim C2 as stated.**  When the first turn's audio
request rejects and no skip has been signaled, the loop is aborted and the
error surfaced — but the after-loop epilogue `if (!isSkippedRef.current) { ...; setPhase(DebatePhase.VOTING) }`
runs because no skip happened, so the phase DOES advance to voting
automatically, contrary to the claim. -/
theorem C2_cex :
    (playStep startPlayback (.audioErr 0)).loopPt = .finished
  ∧ (playStep startPlayback (.audioErr 0)).errorSurfaced = true
  ∧ (playStep startPlayback (.audioErr 0)).isSkipped = false
  ∧ (playStep startPlayback (.audioErr 0)).phase = .VOTING := by
  refine ⟨rfl, rfl, rfl, rfl⟩

/-- **Claim C2, amended.**  When the audio-generation request for a turn
rejects (capability error) and no skip has been signaled, the entire playback
loop is aborted (and stays aborted for all later events), a user-visible
error is surfaced, and the phase advances to voting automatically via the
after-loop epilogue. -/
theorem C2_audio_error_amended (s : PlayState) (i id : Nat)
    (hpt : s.loopPt = .pendingAudio i) (hns : s.isSkipped = false)
    (haw : s.awaiting = some id) :
    (playStep s (.audioErr id)).loopPt = .finished
  ∧ (playStep s (.audioErr id)).errorSurfaced = true
  ∧ (playStep s (.audioErr id)).phase = .VOTING
  ∧ ∀ evs, (runEvents (playStep s (.audioErr id)) evs).loopPt = .finished := by
  cases s with
  | mk pt sk ph er rq aw =>
      cases hpt
      cases hns
      cases haw
      have hstep : playStep ⟨.pendingAudio i, false, ph, er, rq, some id⟩ (.audioErr id)
          = ⟨.finished, false, .VOTING, true, rq, none⟩ := by
        simp [playStep, exitLoop]
      rw [hstep]
      exact ⟨rfl, rfl, rfl, fun evs => runEvents_finished _ rfl evs⟩

/-- Witness for C2's amended theorem: the first turn's audio request fails. -/
theorem C2_audio_error_amended_witness :
    (playStep startPlayback (.audioErr 0)).errorSurfaced = true
  ∧ (playStep startPlayback (.audioErr 0)).phase = DebatePhase.VOTING
  ∧ (runEvents (playStep startPlayback (.audioErr 0)) [.skipTurn, .playEnd]).loopPt
      = LoopPt.finished := by
  have h := C2_audio_error_amended startPlayback 0 0 rfl rfl rfl
  exact ⟨h.2.1, h.2.2.1, h.2.2.2 [.skipTurn, .playEnd]⟩

/-! ### JUMP_TO_VOTING stickiness and idempotence (claim C8) -/

/-- **Claim C8.**  Once `JUMP_TO_VOTING` is signaled during the playback
loop, the loop terminates within one suspension-point boundary (the very
step of the signal ends the loop), the flag is sticky, signaling it a second
time has no further effect, every later event leaves the state untouched (so
no further audio request or playback is ever started — `requests` never grows
again), and the late settlement of an already-in-flight audio promise is
discarded. -/
theorem C8_jump_to_voting_sticky (s : PlayState) (hns : s.isSkipped = false)
    (hloop : s.loopPt ≠ .finished) :
    (playStep s .skipToVoting).loopPt = .finished
  ∧ (playStep s .skipToVoting).isSkipped = true
  ∧ (playStep s .skipToVoting).phase = .VOTING
  ∧ (playStep s .skipToVoting).requests = s.requests
  ∧ playStep (playStep s .skipToVoting) .skipToVoting = playStep s .skipToVoting
  ∧ (∀ evs, runEvents (playStep s .skipToVoting) evs = playStep s .skipToVoting)
  ∧ (∀ id ne, playStep (playStep s .skipToVoting) (.audioOk id ne)
        = playStep s .skipToVoting) := by
  have h1 : playStep s .skipToVoting
      = { s with isSkipped := true, phase := .VOTING, loopPt := .finished,
                 awaiting := none } := by
    cases s with
    | mk pt sk ph er rq aw =>
        cases hns
        cases pt with
        | pendingAudio i => simp [playStep, skipToVotingStep]
        | playing i => simp [playStep, skipToVotingStep]
        | finished => exact absurd rfl hloop
  refine ⟨by rw [h1], by rw [h1], by rw [h1], by rw [h1], ?_, ?_, ?_⟩
  · rw [h1]
    exact skipped_finished_frozen _ rfl rfl _
  · intro evs
    rw [h1]
    exact runEvents_skipped_frozen _ rfl rfl evs
  · intro id ne
    rw [h1]
    exact skipped_finished_frozen _ rfl rfl _

/-- Witness for C8: skip to voting signaled while turn 0's audio is pending;
a late audio settlement and further events change nothing. -/
theorem C8_jump_to_voting_sticky_witness :
    (playStep startPlayback .skipToVoting).loopPt = LoopPt.finished
  ∧ playStep (playStep startPlayback .skipToVoting) .skipToVoting
      = playStep startPlayback .skipToVoting
  ∧ runEvents (playStep startPlayback .skipToVoting) [.audioOk 0 true, .playEnd]
      = playStep startPlayback .skipToVoting := by
  have h := C8_jump_to_voting_sticky startPlayback rfl (by decide)
  exact ⟨h.1, h.2.2.2.2.1, h.2.2.2.2.2.1 [.audioOk 0 true, .playEnd]⟩

/-! ### ADVANCE during PENDING_AUDIO (claim C9) -/

/-- **Claim C9.**  Issuing ADVANCE (`handleSkip`) while turn `i` is awaiting
audio generation makes the loop proceed directly to turn `i+1` (when one
exists) without ever entering the PLAYING state for turn `i`; turn `i`'s
audio request is abandoned — a fresh request is started for turn `i+1` and
the old promise's later settlement is discarded, never awaited. -/
theorem C9_advance_during_pending_audio (s : PlayState) (i id : Nat)
    (hpt : s.loopPt = .pendingAudio i) (hns : s.isSkipped = false)
    (haw : s.awaiting = some id) (hidlt : id < s.requests)
    (hlast : i + 1 < numTurns) :
    (playStep s .skipTurn).loopPt = .pendingAudio (i + 1)
  ∧ (playStep s .skipTurn).loopPt ≠ .playing i
  ∧ (playStep s .skipTurn).requests = s.requests + 1
  ∧ (playStep s .skipTurn).awaiting = some s.requests
  ∧ ∀ ne, playStep (playStep s .skipTurn) (.audioOk id ne) = playStep s .skipTurn := by
  have h1 : playStep s .skipTurn
      = { s with loopPt := .pendingAudio (i + 1), requests := s.requests + 1,
                 awaiting := some s.requests } := by
    cases s with
    | mk pt sk ph er rq aw =>
        cases hpt
        cases hns
        simp [playStep, advanceTurn, hlast]
  refine ⟨by rw [h1], by rw [h1]; simp, by rw [h1], by rw [h1], ?_⟩
  · intro ne
    rw [h1]
    have hne : ¬((some s.requests : Option Nat) = some id) := by
      simp only [Option.some.injEq]
      exact fun h => (Nat.ne_of_lt hidlt) h.symm
    simp [playStep, hne]

/-- Witness for C9: ADVANCE while turn 0's audio (request id 0) is pending. -/
theorem C9_advance_during_pending_audio_witness :
    (playStep startPlayback .skipTurn).loopPt = LoopPt.pendingAudio 1
  ∧ playStep (playStep startPlayback .skipTurn) (.audioOk 0 true)
      = playStep startPlayback .skipTurn := by
  have h := C9_advance_during_pending_audio startPlayback 0 0 rfl rfl rfl
    (by decide) (by decide)
  exact ⟨h.1, h.2.2.2.2 true⟩

end DebateApp
